import Mathlib

/-!
Verification of the core of compare_xml (src/compare_xml.py): a shallow
embedding of WrappedElement, XMLUniquePath and XMLCompare, with proofs of the
specified properties of path uniquification and set-based diffing.

Strings are modelled by Lean strings and manipulated through their character
lists; Python integers are Lean integers where a sign can occur. Python
dictionaries are association lists in insertion order. lxml attribute
mappings are association lists in document order with pairwise distinct
keys; their Python equality compares them as dictionaries
(order-insensitively), while their items() view lists them in storage order.
-/

namespace CompareXml

/-- Python str.rfind of one character, on a character list: the greatest
index holding the character, if any. -/
def lastIdx (c : Char) : List Char → Option Nat
  | [] => none
  | x :: xs =>
    match lastIdx c xs with
    | some i => some (i + 1)
    | none => if x = c then some 0 else none

/-- Python path.rfind of the slash character: greatest index, or -1. -/
def pyRFindSlash (s : String) : Int :=
  match lastIdx '/' s.data with
  | some i => (i : Int)
  | none => -1

/-- The scanning pass of Python str.replace, on character lists, with
explicit fuel. The fuel is always at least the length of the remaining
subject, so the zero-fuel branch is unreachable; the pattern is nonempty
here. At each position, if the pattern is a prefix of the remainder, the
replacement is emitted and the pattern consumed, else one character is kept. -/
def pyRepFuel (old new : List Char) : Nat → List Char → List Char
  | 0, s => s
  | _ + 1, [] => []
  | fuel + 1, c :: rest =>
    if old.isPrefixOf (c :: rest) then
      new ++ pyRepFuel old new fuel (rest.drop (old.length - 1))
    else
      c :: pyRepFuel old new fuel rest

/-- Python str.replace. An empty pattern inserts the replacement at every
boundary of the subject, as Python does; a nonempty pattern replaces its
non-overlapping occurrences from the left. -/
def pyReplace (s old new : String) : String :=
  if old.data = [] then
    ⟨new.data ++ s.data.foldr (fun c acc => c :: (new.data ++ acc)) []⟩
  else
    ⟨pyRepFuel old.data new.data s.data.length s.data⟩

/-- Python slice s[:k] by characters: a nonnegative bound keeps the first k
characters, a negative bound counts from the end of the string (clamped at
zero). -/
def pySliceTo (s : String) (k : Int) : String :=
  ⟨s.data.take (if k < 0 then ((s.data.length : Int) + k).toNat else k.toNat)⟩

/-- Model of WrappedElement (src lines 70-83): the wrapped element's tag,
attribute list in document storage order, and text. The tag and the
position of the element take no part in equality or hashing. -/
structure WrappedElement where
  tag : String
  attrib : List (String × String)
  text : Option String
deriving DecidableEq, Repr

/-- Mapping lookup in an attribute list. Attribute lists of parsed elements
have pairwise distinct keys, so first-match lookup is dictionary lookup. -/
def attribLookup (a : List (String × String)) (k : String) : Option String :=
  (a.find? (fun p => p.1 == k)).map (fun p => p.2)

/-- Python dictionary equality of two attribute mappings, as produced by the
comparison of lxml attribute objects: the two mappings agree, as lookup
functions, on every key occurring in either list; keys occurring in neither
are absent from both. Insensitive to storage order. -/
def attribDictEq (a b : List (String × String)) : Bool :=
  a.all (fun p => attribLookup a p.1 == attribLookup b p.1) &&
    b.all (fun p => attribLookup a p.1 == attribLookup b p.1)

/-- WrappedElement.__eq__ (src lines 77-80): the attribute mappings are
equal as dictionaries and the texts are equal; the tag is not consulted. -/
def weq (w1 w2 : WrappedElement) : Bool :=
  attribDictEq w1.attrib w2.attrib && w1.text == w2.text

/-- WrappedElement.__hash__ (src lines 82-83) hashes the tuple of the
attribute items in storage order followed by the text. Python's hash value
is a function of exactly this tuple, so we model the hash by the tuple
itself: two wrappers receive the same hash value exactly when their hash
tuples coincide (hash collisions between distinct tuples are neglected). -/
def hashKey (w : WrappedElement) : List (String × String) × Option String :=
  (w.attrib, w.text)

/-- The membership test of a Python set probe on wrapped elements: the
candidate matches a stored element when their hash values agree and
__eq__ holds. -/
def wMatch (w1 w2 : WrappedElement) : Bool :=
  (hashKey w1 == hashKey w2) && weq w1 w2

/-- Python set(l1) == set(l2) on lists of wrapped elements: mutual
inclusion under the set membership test. -/
def pySetEq (l1 l2 : List WrappedElement) : Bool :=
  l1.all (fun w => l2.any (fun v => wMatch w v)) &&
    l2.all (fun w => l1.any (fun v => wMatch w v))

/-- Lookup in a Python dictionary modelled as an association list in
insertion order. -/
def pyDictGet {α : Type} (m : List (String × α)) (k : String) : Option α :=
  (m.find? (fun p => p.1 == k)).map (fun p => p.2)

/-- Python dictionary assignment: update the value of an existing key in
place, else append the new binding. -/
def pyDictSet {α : Type} (m : List (String × α)) (k : String) (v : α) :
    List (String × α) :=
  if (pyDictGet m k).isSome then
    m.map (fun p => if p.1 == k then (p.1, v) else p)
  else
    m ++ [(k, v)]

/-- Src lines 158-162: append a wrapper to the list of an existing path,
else start a new singleton list for the path. -/
def pathsAdd (m : List (String × List WrappedElement)) (k : String)
    (w : WrappedElement) : List (String × List WrappedElement) :=
  if (pyDictGet m k).isSome then
    m.map (fun p => if p.1 == k then (p.1, p.2 ++ [w]) else p)
  else
    m ++ [(k, [w])]

/-- The loop of XMLUniquePath._replace_trans (src lines 114-123), with
explicit fuel, one unit more than the length of the current candidate, so
that the zero-fuel branch is unreachable. A candidate found in the table
ends the loop, and the whole path has that candidate replaced by its
translation; the source tests membership inside the loop and accesses the
table after it with the same candidate, which this merges into one lookup.
The final table access of the source on a candidate that is absent --
possible only for the empty candidate, which the loop condition never
examines -- raises KeyError, modelled by none. When the last slash of a
candidate sits at position zero or is absent, the original path is
returned unchanged. -/
def rtFuel (trans : List (String × String)) (path : String) :
    Nat → String → Option String
  | 0, _ => none
  | fuel + 1, cur =>
    match pyDictGet trans cur with
    | some v => some (pyReplace path cur v)
    | none =>
      if cur.data.length = 0 then none
      else if pyRFindSlash cur ≤ 0 then some path
      else rtFuel trans path fuel (pySliceTo cur (pyRFindSlash cur))

/-- XMLUniquePath._replace_trans (src lines 103-123). An empty translation
table returns the path unchanged. -/
def replace_trans (trans : List (String × String)) (path : String) :
    Option String :=
  if trans.length = 0 then some path
  else rtFuel trans path (path.data.length + 1) path

/-- The candidates the _replace_trans loop examines, in order: the path
itself, then the path with the last slash-segment stripped, and so on while
the last slash sits at a positive position. Same fuel discipline as the
loop itself. -/
def stripChainF : Nat → String → List String
  | 0, _ => []
  | fuel + 1, cur =>
    cur ::
      (if cur.data.length = 0 then []
       else if pyRFindSlash cur ≤ 0 then []
       else stripChainF fuel (pySliceTo cur (pyRFindSlash cur)))

/-- All candidates examined for a given path. -/
def stripChain (path : String) : List String :=
  stripChainF (path.data.length + 1) path

/-- Src lines 144-147: scan the special attribute list in order; the first
name present in the element's attributes yields its value and ends the
scan; otherwise the string stays empty. -/
def scanSpecial (attrib : List (String × String)) : List String → String
  | [] => ""
  | k :: rest =>
    match attribLookup attrib k with
    | some v => v
    | none => scanSpecial attrib rest

/-- Src lines 143-149: the raw uniqueness fragment before sanitisation: the
special-attribute scan result, replaced by the element's text when that
result is the empty string and the text is present and nonempty. -/
def rawFragment (special : List String) (attrib : List (String × String))
    (text : Option String) : String :=
  let u := scanSpecial attrib special
  match text with
  | some s => if u = "" ∧ s.data.length > 0 then s else u
  | none => u

/-- Src line 151: strip newline characters, then slash characters. -/
def sanitize (s : String) : String :=
  pyReplace (pyReplace s "\n" "") "/" ""

/-- Src lines 152-153: a fragment strictly longer than the configured
maximum is cut to the slice up to index maximum - 1. -/
def truncStep (maxLen : Int) (s : String) : String :=
  if (s.data.length : Int) > maxLen then pySliceTo s (maxLen - 1) else s

/-- The complete uniqueness fragment of one element: steps 1 to 4 of
_create_path_tree. -/
def fragmentOf (special : List String) (maxLen : Int)
    (attrib : List (String × String)) (text : Option String) : String :=
  truncStep maxLen (sanitize (rawFragment special attrib text))

/-- A parsed XML element: tag, attribute list in document order, text, and
child elements in document order. -/
structure XElem where
  tag : String
  attrib : List (String × String)
  text : Option String
  children : List XElem

/-- One segment of lxml getpath for the child at position i of the sibling
list: a slash and the tag, with a 1-based same-tag index bracket exactly
when more than one sibling carries the tag. -/
def rawSeg (siblings : List XElem) (i : Nat) (c : XElem) : String :=
  if siblings.countP (fun s => s.tag == c.tag) ≤ 1 then "/" ++ c.tag
  else
    "/" ++ c.tag ++ "[" ++
      toString ((siblings.take i).countP (fun s => s.tag == c.tag) + 1) ++ "]"

/-- One element as visited by the traversal of _create_path_tree: its data,
its raw structural path (lxml getpath), and its parent's raw path, absent
for the root element. -/
structure PathJob where
  tag : String
  attrib : List (String × String)
  text : Option String
  raw : String
  parentRaw : Option String

mutual
/-- The document-order element listing of root.iter() paired with the raw
getpath of every element, for a subtree whose root has raw path raw. -/
def jobsE (pp : Option String) (raw : String) : XElem → List PathJob
  | .mk t a x cs => ⟨t, a, x, raw, pp⟩ :: jobsF raw cs 0 cs
/-- The same listing for the trailing siblings of a child list, counted from
position i; allSibs is the full sibling list, used for getpath indexing. -/
def jobsF (praw : String) (allSibs : List XElem) : Nat → List XElem → List PathJob
  | _, [] => []
  | i, c :: rest =>
    jobsE (some praw) (praw ++ rawSeg allSibs i c) c ++ jobsF praw allSibs (i + 1) rest
end

/-- The full document-order listing; the raw path of the root element is a
slash and its tag. -/
def jobs (t : XElem) : List PathJob := jobsE none ("/" ++ t.tag) t

/-- The state mutated by _create_path_tree: the paths dictionary and the
translation table, both in insertion order. -/
structure UPState where
  paths : List (String × List WrappedElement)
  trans : List (String × String)

/-- The loop body of _create_path_tree (src lines 142-162) for one element:
compute the uniqueness fragment, translate the parent's raw path (the empty
string for the root), extend it with a slash, the tag and the fragment,
record the translation of this element's raw path, and append the wrapper
to the paths dictionary. A KeyError from the translation lookup is none. -/
def stepJob (special : List String) (maxLen : Int) (st : UPState) (j : PathJob) :
    Option UPState :=
  let u := fragmentOf special maxLen j.attrib j.text
  match replace_trans st.trans (j.parentRaw.getD "") with
  | none => none
  | some pp =>
    some ⟨pathsAdd st.paths (pp ++ "/" ++ j.tag ++ u) ⟨j.tag, j.attrib, j.text⟩,
          pyDictSet st.trans j.raw (pp ++ "/" ++ j.tag ++ u)⟩

/-- XMLUniquePath._create_path_tree (src lines 125-162): fold the loop body
over the document-order element listing, starting from empty dictionaries,
and return the paths dictionary. -/
def create_path_tree (special : List String) (maxLen : Int) (t : XElem) :
    Option (List (String × List WrappedElement)) :=
  (List.foldlM (stepJob special maxLen) ⟨[], []⟩ (jobs t)).map (fun st => st.paths)

mutual
/-- Direct description of the outcome of the traversal: every element of a
subtree paired with its synthetic path, which extends the parent's
synthetic path pp by a slash, the tag and the uniqueness fragment. -/
def synthE (special : List String) (maxLen : Int) (pp : String) :
    XElem → List (String × WrappedElement)
  | .mk t a x cs =>
    (pp ++ "/" ++ t ++ fragmentOf special maxLen a x, ⟨t, a, x⟩) ::
      synthF special maxLen (pp ++ "/" ++ t ++ fragmentOf special maxLen a x) cs
/-- The same description for a child list under a parent whose synthetic
path is tp. -/
def synthF (special : List String) (maxLen : Int) (tp : String) :
    List XElem → List (String × WrappedElement)
  | [] => []
  | c :: rest => synthE special maxLen tp c ++ synthF special maxLen tp rest
end

/-- Fold the per-path append of the traversal over a synthetic-path
listing. -/
def foldPaths (P : List (String × List WrappedElement))
    (l : List (String × WrappedElement)) : List (String × List WrappedElement) :=
  l.foldl (fun acc p => pathsAdd acc p.1 p.2) P

/-- The paths dictionary of a tree, described directly. -/
def pathMapD (special : List String) (maxLen : Int) (t : XElem) :
    List (String × List WrappedElement) :=
  foldPaths [] (synthE special maxLen "" t)

/-- A value of the diff dictionary of XMLCompare: the wrapper lists
contributed by document 1 and by document 2, each present only when that
document contributes to the difference. -/
structure DiffEntry where
  root1 : Option (List WrappedElement)
  root2 : Option (List WrappedElement)
deriving DecidableEq, Repr

/-- The keys of a dictionary, in insertion order. -/
def keysOf {α : Type} (m : List (String × α)) : List String :=
  m.map (fun p => p.1)

/-- The wrapper list of a path, or the empty list when absent. -/
def getList (m : List (String × List WrappedElement)) (k : String) :
    List WrappedElement :=
  (pyDictGet m k).getD []

/-- XMLCompare._compare (src lines 194-214): record the paths found only in
document 1 with their document-1 wrapper lists, the paths found only in
document 2 with their document-2 lists, and the shared paths whose wrapper
lists differ as Python sets with both lists. Python iterates the key sets
in an unspecified order; the keys are enumerated here in dictionary order,
which fixes an order without changing the produced dictionary's key set or
the entry recorded under any key. -/
def compareMaps (m1 m2 : List (String × List WrappedElement)) :
    List (String × DiffEntry) :=
  ((keysOf m1).filter (fun k => !((keysOf m2).contains k))).map
      (fun k => (k, ⟨pyDictGet m1 k, none⟩)) ++
    ((keysOf m2).filter (fun k => !((keysOf m1).contains k))).map
      (fun k => (k, ⟨none, pyDictGet m2 k⟩)) ++
    ((keysOf m1).filter
        (fun k => ((keysOf m2).contains k) &&
          !(pySetEq (getList m1 k) (getList m2 k)))).map
      (fun k => (k, ⟨pyDictGet m1 k, pyDictGet m2 k⟩))

/-- XMLCompare construction (src lines 173-186): uniquify both documents
with the same configuration, then compare; the diff dictionary. -/
def xmlCompare (special : List String) (maxLen : Int) (t1 t2 : XElem) :
    Option (List (String × DiffEntry)) :=
  match create_path_tree special maxLen t1, create_path_tree special maxLen t2 with
  | some m1, some m2 => some (compareMaps m1 m2)
  | _, _ => none

/-- XMLCompare.the_same (src lines 188-192): the length of the diff
dictionary is zero. -/
def the_same (d : List (String × DiffEntry)) : Bool := d.length == 0

mutual
/-- Reordering of sibling elements, at any depth: both elements carry the
same tag, attributes and text, and their child lists are related by a
permutation whose matched children are themselves reorderings. -/
inductive SibPerm : XElem → XElem → Prop
  | mk : ∀ (t : String) (a : List (String × String)) (x : Option String) cs1 cs2,
      SibPermF cs1 cs2 → SibPerm ⟨t, a, x, cs1⟩ ⟨t, a, x, cs2⟩
/-- Permutation of sibling lists up to SibPerm of the matched elements. -/
inductive SibPermF : List XElem → List XElem → Prop
  | nil : SibPermF [] []
  | cons : ∀ c1 c2 l1 l2, SibPerm c1 c2 → SibPermF l1 l2 → SibPermF (c1 :: l1) (c2 :: l2)
  | swap : ∀ a b l, SibPermF (a :: b :: l) (b :: a :: l)
  | trans : ∀ l1 l2 l3, SibPermF l1 l2 → SibPermF l2 l3 → SibPermF l1 l3
end

mutual
/-- All elements of a subtree, in document order. -/
def allNodes : XElem → List XElem
  | .mk t a x cs => ⟨t, a, x, cs⟩ :: allNodesF cs
/-- All elements of a forest, in document order. -/
def allNodesF : List XElem → List XElem
  | [] => []
  | c :: rest => allNodes c ++ allNodesF rest
end

/-- The sibling elements of every node are pairwise distinguishable by the
configured heuristic: under any one parent, no two children share both
their tag and their uniqueness fragment. -/
def Disting (special : List String) (maxLen : Int) (t : XElem) : Prop :=
  ∀ e ∈ allNodes t,
    (e.children.map
        (fun c => c.tag ++ fragmentOf special maxLen c.attrib c.text)).Nodup

/-! Basic lemmas about the dictionary operations. -/

theorem str_mk_data : ∀ s : String, String.mk s.data = s := fun ⟨_⟩ => rfl

theorem str_eq_iff_data (s t : String) : s = t ↔ s.data = t.data := by
  obtain ⟨d⟩ := s
  obtain ⟨e⟩ := t
  constructor
  · intro h; cases h; rfl
  · intro h; cases h; rfl

theorem str_ne_empty_iff (s : String) : s ≠ "" ↔ s.data ≠ [] := by
  rw [Ne, str_eq_iff_data]

theorem pyDictGet_nil {α : Type} (k : String) : pyDictGet ([] : List (String × α)) k = none := rfl

theorem pyDictGet_cons {α : Type} (a : String) (b : α) (m : List (String × α)) (k : String) :
    pyDictGet ((a, b) :: m) k = if a = k then some b else pyDictGet m k := by
  by_cases h : a = k <;> simp [pyDictGet, List.find?_cons, h]

theorem pyDictGet_append {α : Type} (m1 m2 : List (String × α)) (k : String) :
    pyDictGet (m1 ++ m2) k = (pyDictGet m1 k).or (pyDictGet m2 k) := by
  simp only [pyDictGet, List.find?_append]
  cases List.find? (fun p => p.1 == k) m1 <;> simp

theorem pyDictGet_append_single {α : Type} (m : List (String × α)) (k : String) (v : α)
    (k' : String) :
    pyDictGet (m ++ [(k, v)]) k' =
      if (pyDictGet m k').isSome then pyDictGet m k'
      else if k = k' then some v else none := by
  rw [pyDictGet_append]
  cases h : pyDictGet m k' <;> by_cases he : k = k' <;>
    simp [pyDictGet_cons, pyDictGet_nil, he, Option.or]

/-- Lookup after an in-place adjustment of the value stored under one key. -/
theorem pyDictGet_mapAdj {α : Type} (g : α → α) (k k' : String) :
    ∀ m : List (String × α),
      pyDictGet (m.map fun p => if p.1 == k then (p.1, g p.2) else p) k' =
        if k = k' then (pyDictGet m k).map g else pyDictGet m k'
  | [] => by by_cases h : k = k' <;> simp [pyDictGet, h]
  | (a, b) :: m => by
    have ih := pyDictGet_mapAdj g k k' m
    by_cases hak : a = k
    · subst hak
      by_cases hk' : a = k'
      · subst hk'
        simp [List.map_cons, pyDictGet_cons]
      · have hne : ¬ (a = k') := hk'
        simp only [List.map_cons, beq_self_eq_true, if_true, pyDictGet_cons, hne,
          if_false, ite_false, ih]
    · have hb : ((a, b).1 == k) = false := by simp [hak]
      by_cases hk' : a = k'
      · subst hk'
        have hne : ¬ (k = a) := fun h => hak h.symm
        simp only [List.map_cons, hb, Bool.false_eq_true, if_false, ite_false,
          pyDictGet_cons, if_pos rfl, hne, if_true]
      · simp only [List.map_cons, hb, Bool.false_eq_true, if_false, ite_false,
          pyDictGet_cons, hk', ih, hak]

theorem get_pyDictSet {α : Type} (m : List (String × α)) (k : String) (v : α) (k' : String) :
    pyDictGet (pyDictSet m k v) k' = if k = k' then some v else pyDictGet m k' := by
  unfold pyDictSet
  by_cases hs : (pyDictGet m k).isSome
  · simp only [hs, if_true]
    rw [pyDictGet_mapAdj (fun _ => v) k k' m]
    obtain ⟨w, hw⟩ := Option.isSome_iff_exists.mp hs
    by_cases he : k = k'
    · subst he; simp [hw]
    · simp [he]
  · simp only [hs, Bool.false_eq_true, if_false, ite_false]
    have hn : pyDictGet m k = none := by
      cases hx : pyDictGet m k
      · rfl
      · rw [hx] at hs; simp at hs
    rw [pyDictGet_append_single]
    by_cases he : k = k'
    · subst he; simp [hn]
    · simp only [he, if_false, ite_false]
      cases hx : pyDictGet m k' <;> simp

theorem get_pathsAdd (m : List (String × List WrappedElement)) (k : String)
    (w : WrappedElement) (k' : String) :
    pyDictGet (pathsAdd m k w) k' =
      if k = k' then some ((pyDictGet m k).getD [] ++ [w]) else pyDictGet m k' := by
  unfold pathsAdd
  by_cases hs : (pyDictGet m k).isSome
  · simp only [hs, if_true]
    rw [pyDictGet_mapAdj (fun l => l ++ [w]) k k' m]
    obtain ⟨l, hl⟩ := Option.isSome_iff_exists.mp hs
    by_cases he : k = k'
    · subst he; simp [hl]
    · simp [he]
  · simp only [hs, Bool.false_eq_true, if_false, ite_false]
    have hn : pyDictGet m k = none := by
      cases hx : pyDictGet m k
      · rfl
      · rw [hx] at hs; simp at hs
    rw [pyDictGet_append_single]
    by_cases he : k = k'
    · subst he; simp [hn]
    · simp only [he, if_false, ite_false]
      cases hx : pyDictGet m k' <;> simp

/-! Lemmas about the string primitives. -/

theorem pyRepFuel_nil (old new : List Char) : ∀ fuel, pyRepFuel old new fuel [] = []
  | 0 => rfl
  | _ + 1 => rfl

/-- Replacing the whole string by v yields v, as in Python. -/
theorem pyReplace_self (s v : String) : pyReplace s s v = v := by
  unfold pyReplace
  cases hd : s.data with
  | nil => simp [hd, str_mk_data]
  | cons c rest =>
    simp only [hd, List.cons_ne_nil, if_neg, ite_false]
    have hpre : List.isPrefixOf (c :: rest) (c :: rest) = true := by
      simp [List.isPrefixOf_iff_prefix]
    have hlen : (c :: rest).length = rest.length + 1 := by simp
    rw [hlen]
    show String.mk (pyRepFuel (c :: rest) v.data (rest.length + 1) (c :: rest)) = v
    rw [pyRepFuel]
    simp only [hpre, if_true]
    have hdrop : rest.drop ((c :: rest).length - 1) = [] := by
      simp
    rw [hdrop, pyRepFuel_nil, List.append_nil, str_mk_data]

theorem lastIdx_lt_length (c : Char) : ∀ l : List Char, ∀ i, lastIdx c l = some i → i < l.length
  | [], i => by simp [lastIdx]
  | x :: xs, i => by
    intro h
    rw [lastIdx] at h
    cases hx : lastIdx c xs with
    | some j =>
      rw [hx] at h
      have := lastIdx_lt_length c xs j hx
      simp only [Option.some.injEq] at h
      simp only [List.length_cons]
      omega
    | none =>
      rw [hx] at h
      by_cases hc : x = c
      · simp [hc] at h
        simp only [List.length_cons]
        omega
      · simp [hc] at h

/-! Lemmas about _replace_trans. -/

theorem replace_trans_nil (p : String) : replace_trans [] p = some p := by
  simp [replace_trans]

theorem nonempty_of_get_some {α : Type} {tr : List (String × α)} {k : String} {v : α}
    (h : pyDictGet tr k = some v) : tr.length ≠ 0 := by
  cases tr with
  | nil => simp [pyDictGet] at h
  | cons a m => simp

/-- A path present in the table translates to its recorded value. -/
theorem replace_trans_present (tr : List (String × String)) (p v : String)
    (h : pyDictGet tr p = some v) : replace_trans tr p = some v := by
  unfold replace_trans
  simp only [nonempty_of_get_some h, if_false, ite_false]
  rw [rtFuel]
  simp [h, pyReplace_self]

/-- The loop returns the untranslated path when no examined candidate is a
key of the table. -/
theorem rtFuel_nomatch (tr : List (String × String)) (path : String) :
    ∀ fuel (cur : String), cur.data.length + 1 ≤ fuel → 1 ≤ cur.data.length →
      (∀ q ∈ stripChainF fuel cur, pyDictGet tr q = none) →
      rtFuel tr path fuel cur = some path := by
  intro fuel
  induction fuel with
  | zero => intro cur h; omega
  | succ f ih =>
    intro cur hfuel hlen hchain
    have hcur : pyDictGet tr cur = none := by
      apply hchain
      rw [stripChainF]
      exact List.mem_cons_self _ _
    rw [rtFuel]
    simp only [hcur]
    have hne : ¬ cur.data.length = 0 := by omega
    simp only [hne, if_false, ite_false]
    by_cases hback : pyRFindSlash cur ≤ 0
    · simp [hback]
    · simp only [hback, if_false, ite_false]
      have hidx : ∃ i, lastIdx '/' cur.data = some i ∧ 1 ≤ i ∧ i < cur.data.length := by
        unfold pyRFindSlash at hback
        cases hx : lastIdx '/' cur.data with
        | none => rw [hx] at hback; simp at hback
        | some i =>
          rw [hx] at hback
          refine ⟨i, rfl, ?_, lastIdx_lt_length '/' cur.data i hx⟩
          by_contra hi
          push_neg at hi
          interval_cases i
          · simp at hback
      obtain ⟨i, hi, h1, hlt⟩ := hidx
      have hslice : (pySliceTo cur (pyRFindSlash cur)).data = cur.data.take i := by
        unfold pySliceTo pyRFindSlash
        rw [hi]
        have : ¬ ((i : Int) < 0) := by omega
        simp [this]
      apply ih
      · rw [hslice]
        simp only [List.length_take]
        omega
      · rw [hslice]
        simp only [List.length_take]
        omega
      · intro q hq
        apply hchain
        rw [stripChainF]
        simp only [hne, if_false, hback, ite_false, List.mem_cons]
        right
        exact hq

/-- _replace_trans returns the path unchanged when no candidate matches. -/
theorem replace_trans_nomatch (tr : List (String × String)) (path : String)
    (hp : path ≠ "")
    (hchain : ∀ q ∈ stripChain path, pyDictGet tr q = none) :
    replace_trans tr path = some path := by
  unfold replace_trans
  by_cases htr : tr.length = 0
  · simp [htr]
  · simp only [htr, if_false, ite_false]
    apply rtFuel_nomatch tr path _ path (by omega)
    · have := (str_ne_empty_iff path).mp hp
      have : path.data.length ≠ 0 := by
        intro h0
        exact this (List.eq_nil_of_length_eq_zero h0)
      omega
    · exact hchain

/-! The bridge: the stateful traversal of _create_path_tree computes the
directly described paths dictionary, and this never fails. The translation
table can never lose the binding of an element's raw path before the
element's children are processed, because every raw path inserted in
between belongs to a descendant and is strictly longer. -/

theorem str_data_append (a b : String) : (a ++ b).data = a.data ++ b.data := rfl

theorem rawSeg_len (sibs : List XElem) (i : Nat) (c : XElem) :
    1 ≤ (rawSeg sibs i c).data.length := by
  unfold rawSeg
  split <;> simp only [str_data_append, List.length_append] <;> simp

theorem foldPaths_nil (P : List (String × List WrappedElement)) : foldPaths P [] = P := rfl

theorem foldPaths_cons (P : List (String × List WrappedElement))
    (x : String × WrappedElement) (l : List (String × WrappedElement)) :
    foldPaths P (x :: l) = foldPaths (pathsAdd P x.1 x.2) l := rfl

theorem foldPaths_append (P : List (String × List WrappedElement))
    (l1 l2 : List (String × WrappedElement)) :
    foldPaths P (l1 ++ l2) = foldPaths (foldPaths P l1) l2 := by
  unfold foldPaths
  rw [List.foldl_append]

mutual
/-- Processing the subtree of an element whose raw path is raw, when the
parent path argument translates to pp: the paths dictionary accumulates the
direct synthetic listing of the subtree, and the translation table is
unchanged on every key shorter than raw. -/
theorem bridgeE (special : List String) (maxLen : Int) :
    ∀ (e : XElem) (raw : String) (ppo : Option String) (pp : String) (st : UPState),
      1 ≤ raw.data.length →
      replace_trans st.trans (ppo.getD "") = some pp →
      ∃ tr', List.foldlM (stepJob special maxLen) st (jobsE ppo raw e) =
          some ⟨foldPaths st.paths (synthE special maxLen pp e), tr'⟩ ∧
        ∀ k : String, k.data.length < raw.data.length →
          pyDictGet tr' k = pyDictGet st.trans k
  | .mk t a x cs => by
    intro raw ppo pp st hraw hpp
    have hstep : stepJob special maxLen st ⟨t, a, x, raw, ppo⟩ =
        some ⟨pathsAdd st.paths
                (pp ++ "/" ++ t ++ fragmentOf special maxLen a x) ⟨t, a, x⟩,
              pyDictSet st.trans raw
                (pp ++ "/" ++ t ++ fragmentOf special maxLen a x)⟩ := by
      simp [stepJob, hpp]
    have hget1 : pyDictGet
        (pyDictSet st.trans raw (pp ++ "/" ++ t ++ fragmentOf special maxLen a x)) raw =
        some (pp ++ "/" ++ t ++ fragmentOf special maxLen a x) := by
      rw [get_pyDictSet]
      simp
    obtain ⟨tr', heq, hpres⟩ :=
      bridgeF special maxLen cs raw (pp ++ "/" ++ t ++ fragmentOf special maxLen a x) cs 0
        ⟨pathsAdd st.paths (pp ++ "/" ++ t ++ fragmentOf special maxLen a x) ⟨t, a, x⟩,
         pyDictSet st.trans raw (pp ++ "/" ++ t ++ fragmentOf special maxLen a x)⟩
        hraw hget1
    refine ⟨tr', ?_, ?_⟩
    · rw [jobsE, List.foldlM_cons, hstep]
      show List.foldlM (stepJob special maxLen) _ (jobsF raw cs 0 cs) = _
      rw [heq, synthE, foldPaths_cons]
    · intro k hk
      rw [hpres k (by omega)]
      rw [get_pyDictSet]
      have : ¬ (raw = k) := by
        intro h
        rw [h] at hk
        omega
      simp [this]
/-- Processing the listing of the trailing siblings from position i under a
parent whose raw path translates to pp. -/
theorem bridgeF (special : List String) (maxLen : Int) :
    ∀ (cs : List XElem) (praw pp : String) (allSibs : List XElem) (i : Nat) (st : UPState),
      1 ≤ praw.data.length →
      pyDictGet st.trans praw = some pp →
      ∃ tr', List.foldlM (stepJob special maxLen) st (jobsF praw allSibs i cs) =
          some ⟨foldPaths st.paths (synthF special maxLen pp cs), tr'⟩ ∧
        ∀ k : String, k.data.length ≤ praw.data.length →
          pyDictGet tr' k = pyDictGet st.trans k
  | [] => by
    intro praw pp allSibs i st _ _
    exact ⟨st.trans, rfl, fun k _ => rfl⟩
  | c :: rest => by
    intro praw pp allSibs i st hpraw hget
    have hlen : (praw ++ rawSeg allSibs i c).data.length =
        praw.data.length + (rawSeg allSibs i c).data.length := by
      rw [str_data_append, List.length_append]
    have hseg := rawSeg_len allSibs i c
    obtain ⟨tr1, heq1, hpres1⟩ :=
      bridgeE special maxLen c (praw ++ rawSeg allSibs i c) (some praw) pp st
        (by omega) (by simpa using replace_trans_present st.trans praw pp hget)
    have hget2 : pyDictGet tr1 praw = some pp := by
      rw [hpres1 praw (by omega)]
      exact hget
    obtain ⟨tr', heq2, hpres2⟩ :=
      bridgeF special maxLen rest praw pp allSibs (i + 1)
        ⟨foldPaths st.paths (synthE special maxLen pp c), tr1⟩ hpraw hget2
    refine ⟨tr', ?_, ?_⟩
    · rw [jobsF, List.foldlM_append, heq1]
      show List.foldlM (stepJob special maxLen) _ (jobsF praw allSibs (i + 1) rest) = _
      rw [heq2, synthF, foldPaths_append]
    · intro k hk
      rw [hpres2 k hk, hpres1 k (by omega)]
end

/-- _create_path_tree always succeeds and produces the directly described
paths dictionary. -/
theorem create_path_tree_eq (special : List String) (maxLen : Int) (t : XElem) :
    create_path_tree special maxLen t = some (pathMapD special maxLen t) := by
  obtain ⟨tr', heq, -⟩ :=
    bridgeE special maxLen t ("/" ++ t.tag) none "" ⟨[], []⟩
      (by simp [str_data_append]) (replace_trans_nil "")
  unfold create_path_tree jobs pathMapD
  rw [heq]
  rfl

/-! Properties of wrapper equality and of Python set comparison. -/

theorem attribLookup_some_mem {a : List (String × String)} {k v : String}
    (h : attribLookup a k = some v) : ∃ p ∈ a, p.1 = k := by
  unfold attribLookup at h
  cases hf : a.find? (fun p => p.1 == k) with
  | none => rw [hf] at h; simp at h
  | some p =>
    have hm := List.mem_of_find?_eq_some hf
    have hp := List.find?_some hf
    simp only [beq_iff_eq] at hp
    exact ⟨p, hm, hp⟩

/-- The source's dictionary equality is lookup-function equality. -/
theorem attribDictEq_iff (a b : List (String × String)) :
    attribDictEq a b = true ↔ ∀ k, attribLookup a k = attribLookup b k := by
  constructor
  · intro h k
    simp only [attribDictEq, Bool.and_eq_true, List.all_eq_true, beq_iff_eq] at h
    obtain ⟨ha, hb⟩ := h
    cases hx : attribLookup a k with
    | some v =>
      obtain ⟨p, hp, hpk⟩ := attribLookup_some_mem hx
      rw [← hx, ← hpk]
      exact ha p hp
    | none =>
      cases hy : attribLookup b k with
      | none => rfl
      | some w =>
        obtain ⟨q, hq, hqk⟩ := attribLookup_some_mem hy
        have := hb q hq
        rw [hqk, hx, hy] at this
        exact this
  · intro h
    simp only [attribDictEq, Bool.and_eq_true, List.all_eq_true, beq_iff_eq]
    exact ⟨fun p _ => h p.1, fun p _ => h p.1⟩

theorem weq_refl (w : WrappedElement) : weq w w = true := by
  simp [weq, (attribDictEq_iff w.attrib w.attrib).mpr (fun _ => rfl)]

theorem wMatch_refl (w : WrappedElement) : wMatch w w = true := by
  simp [wMatch, weq_refl]

/-- Lists that are permutations of one another are equal Python sets. -/
theorem pySetEq_of_perm {l1 l2 : List WrappedElement} (h : l1.Perm l2) :
    pySetEq l1 l2 = true := by
  simp only [pySetEq, Bool.and_eq_true, List.all_eq_true]
  constructor
  · intro w hw
    simp only [List.any_eq_true]
    exact ⟨w, h.subset hw, wMatch_refl w⟩
  · intro w hw
    simp only [List.any_eq_true]
    exact ⟨w, h.symm.subset hw, wMatch_refl w⟩

/-! Key-set and lookup lemmas for the accumulated paths dictionary. -/

theorem mem_keysOf_iff {α : Type} :
    ∀ (m : List (String × α)) (k : String), k ∈ keysOf m ↔ (pyDictGet m k).isSome
  | [], k => by simp [keysOf, pyDictGet]
  | (a, v) :: m, k => by
    have ih := mem_keysOf_iff m k
    by_cases h : a = k
    · subst h
      simp [keysOf, pyDictGet_cons]
    · have hne : ¬ (k = a) := fun hx => h hx.symm
      simp only [keysOf, List.map_cons, List.mem_cons, hne, false_or,
        pyDictGet_cons, h, if_false, ite_false]
      exact ih

theorem getD_foldPaths :
    ∀ (l : List (String × WrappedElement)) (P : List (String × List WrappedElement))
      (k : String),
      (pyDictGet (foldPaths P l) k).getD [] =
        (pyDictGet P k).getD [] ++ (l.filter (fun p => p.1 == k)).map (fun p => p.2)
  | [], P, k => by simp [foldPaths_nil]
  | (a, w) :: l, P, k => by
    have ih := getD_foldPaths l (pathsAdd P a w) k
    rw [foldPaths_cons, ih, get_pathsAdd]
    by_cases h : a = k
    · subst h
      simp [List.filter_cons, List.append_assoc]
    · have hb : ((a, w).1 == k) = false := by simp [h]
      simp [h, List.filter_cons, hb]

theorem isSome_foldPaths :
    ∀ (l : List (String × WrappedElement)) (P : List (String × List WrappedElement))
      (k : String),
      (pyDictGet (foldPaths P l) k).isSome =
        ((pyDictGet P k).isSome || l.any (fun p => p.1 == k))
  | [], P, k => by simp [foldPaths_nil]
  | (a, w) :: l, P, k => by
    have ih := isSome_foldPaths l (pathsAdd P a w) k
    rw [foldPaths_cons, ih, get_pathsAdd]
    by_cases h : a = k
    · subst h
      simp
    · have hb : ((a, w).1 == k) = false := by simp [h]
      simp [h, hb]

theorem pyDictGet_tabulate {α : Type} (g : String → α) :
    ∀ (ks : List String) (k : String),
      pyDictGet (ks.map (fun k' => (k', g k'))) k = if k ∈ ks then some (g k) else none
  | [], k => by simp [pyDictGet]
  | a :: ks, k => by
    have ih := pyDictGet_tabulate g ks k
    rw [List.map_cons, pyDictGet_cons, ih]
    by_cases h : a = k
    · subst h
      simp
    · have hne : ¬ (k = a) := fun hx => h hx.symm
      simp [h, hne]

/-! Invariance of the paths dictionary under sibling reordering. -/

/-- Reordered trees produce synthetic listings that are permutations of one
another: the synthetic path of a node depends only on the chain of tags and
fragments above it, never on sibling positions. -/
theorem synthE_perm (special : List String) (maxLen : Int) :
    ∀ (e1 e2 : XElem), SibPerm e1 e2 →
      ∀ pp, (synthE special maxLen pp e1).Perm (synthE special maxLen pp e2) :=
  @SibPerm.rec
    (fun e1 e2 _ => ∀ pp, (synthE special maxLen pp e1).Perm (synthE special maxLen pp e2))
    (fun l1 l2 _ => ∀ pp, (synthF special maxLen pp l1).Perm (synthF special maxLen pp l2))
    (fun t a x cs1 cs2 _ ih pp => by
      rw [synthE, synthE]
      exact List.Perm.cons _ (ih _))
    (fun _ => List.Perm.refl _)
    (fun c1 c2 l1 l2 _ _ ih1 ih2 pp => by
      rw [synthF, synthF]
      exact List.Perm.append (ih1 pp) (ih2 pp))
    (fun a b l pp => by
      simp only [synthF]
      rw [← List.append_assoc, ← List.append_assoc]
      exact List.perm_append_comm.append_right _)
    (fun l1 l2 l3 _ _ ih1 ih2 pp => (ih1 pp).trans (ih2 pp))

theorem pathMapD_mem_iff (special : List String) (maxLen : Int) (t : XElem) (k : String) :
    k ∈ keysOf (pathMapD special maxLen t) ↔
      ∃ p ∈ synthE special maxLen "" t, p.1 = k := by
  rw [mem_keysOf_iff]
  unfold pathMapD
  rw [isSome_foldPaths]
  simp [pyDictGet, List.any_eq_true]

theorem pathMapD_getList (special : List String) (maxLen : Int) (t : XElem) (k : String) :
    getList (pathMapD special maxLen t) k =
      ((synthE special maxLen "" t).filter (fun p => p.1 == k)).map (fun p => p.2) := by
  unfold getList pathMapD
  rw [getD_foldPaths]
  simp [pyDictGet]

/-! Scan characterisation used for claim C4. -/

theorem scanSpecial_eq (attrib : List (String × String)) :
    ∀ special : List String,
      scanSpecial attrib special =
        ((special.find? (fun k => (attribLookup attrib k).isSome)).bind
          (fun k => attribLookup attrib k)).getD ""
  | [] => rfl
  | k :: rest => by
    have ih := scanSpecial_eq attrib rest
    cases hx : attribLookup attrib k with
    | some v => simp [scanSpecial, List.find?_cons, hx]
    | none => simp [scanSpecial, List.find?_cons, hx, ih]

/-- C4, counterexample: the preferred attribute name matches on the node,
but its value is the empty string, and the uniqueness fragment is the
node's text rather than that attribute value. -/
theorem claim_C4_cex :
    attribLookup [("name", "")] "name" = some "" ∧
    rawFragment ["name"] [("name", "")] (some "present") = "present" ∧
    ("present" : String) ≠ "" := by decide

/-- C4, amended: the scan stops at the first preferred attribute name
present on the node, but the node's text is consulted whenever the
fragment collected so far is the empty string: when no preferred name is
present, and also when the first matching attribute's value is the empty
string. If the consulted text is absent or empty, the fragment is the
value found by the scan (possibly empty). -/
theorem claim_C4 (special : List String) (attrib : List (String × String))
    (text : Option String) :
    rawFragment special attrib text =
      match (special.find? (fun k => (attribLookup attrib k).isSome)).bind
          (fun k => attribLookup attrib k), text with
      | some v, some s => if v = "" ∧ 0 < s.data.length then s else v
      | some v, none => v
      | none, some s => if 0 < s.data.length then s else ""
      | none, none => "" := by
  unfold rawFragment
  rw [scanSpecial_eq]
  cases hf : (special.find? (fun k => (attribLookup attrib k).isSome)).bind
      (fun k => attribLookup attrib k) with
  | some v => cases text <;> simp
  | none => cases text <;> simp

/-- C5: the code's wrapper equality is order-insensitive dictionary
equality of the attribute mappings, but its hash is computed from the
attribute items in storage order; two wrappers with equal mappings stored
in different orders are equal with distinct hash tuples, violating the
claimed hash consistency (and Python's own requirement on __hash__). -/
theorem claim_C5_bug :
    weq ⟨"e", [("x", "1"), ("y", "2")], none⟩ ⟨"e", [("y", "2"), ("x", "1")], none⟩ = true ∧
    hashKey ⟨"e", [("x", "1"), ("y", "2")], none⟩ ≠
      hashKey ⟨"e", [("y", "2"), ("x", "1")], none⟩ := by decide

/-- C6: at the shared path of the two documents the wrapper lists hold the
same single wrapper content by __eq__ (equal attribute mappings, equal
text), yet a diff entry is recorded, because the order-sensitive hashes
keep the Python sets from matching the two wrappers. -/
theorem claim_C6_bug :
    weq ⟨"r", [("x", "1"), ("y", "2")], none⟩ ⟨"r", [("y", "2"), ("x", "1")], none⟩ = true ∧
    xmlCompare [] 80 ⟨"r", [("x", "1"), ("y", "2")], none, []⟩
        ⟨"r", [("y", "2"), ("x", "1")], none, []⟩ =
      some [("/r", ⟨some [⟨"r", [("x", "1"), ("y", "2")], none⟩],
                    some [⟨"r", [("y", "2"), ("x", "1")], none⟩]⟩)] := by decide

/-- C7: for a configured maximum of at least 1, a sanitized fragment
strictly longer than the maximum is truncated by the embedding step to
exactly the first maximum - 1 characters. -/
theorem claim_C7 (maxLen : Int) (s : String)
    (h1 : 1 ≤ maxLen) (h2 : maxLen < (s.data.length : Int)) :
    truncStep maxLen s = pySliceTo s (maxLen - 1) ∧
    (truncStep maxLen s).data = s.data.take (maxLen - 1).toNat ∧
    ((truncStep maxLen s).data.length : Int) = maxLen - 1 := by
  have hbr : truncStep maxLen s = pySliceTo s (maxLen - 1) := by
    unfold truncStep
    rw [if_pos]
    omega
  have hneg : ¬ (maxLen - 1 < 0) := by omega
  refine ⟨hbr, ?_, ?_⟩
  · rw [hbr]
    unfold pySliceTo
    simp [hneg]
  · rw [hbr]
    unfold pySliceTo
    simp only [hneg, if_false, ite_false]
    show ((s.data.take (maxLen - 1).toNat).length : Int) = maxLen - 1
    rw [List.length_take]
    omega

theorem claim_C7_witness :
    1 ≤ (3 : Int) ∧ (3 : Int) < (("abcde" : String).data.length : Int) ∧
    (truncStep 3 "abcde" = pySliceTo "abcde" (3 - 1) ∧
      (truncStep 3 "abcde").data = ("abcde" : String).data.take ((3 : Int) - 1).toNat ∧
      ((truncStep 3 "abcde").data.length : Int) = 3 - 1) :=
  ⟨by decide, by decide, claim_C7 3 "abcde" (by decide) (by decide)⟩

/-- C10: a fragment of length at most the configured maximum is embedded
unchanged; in particular a fragment of exactly the maximum length appears
verbatim, since truncation requires a strictly longer fragment. -/
theorem claim_C10 (maxLen : Int) (s : String)
    (h : (s.data.length : Int) ≤ maxLen) : truncStep maxLen s = s := by
  unfold truncStep
  rw [if_neg]
  omega

theorem claim_C10_witness :
    ((("abc" : String).data.length : Int) ≤ 3) ∧ truncStep 3 "abc" = "abc" :=
  ⟨by decide, claim_C10 3 "abc" (by decide)⟩

/-- C8: on any nonempty raw path, the translation lookup strips the last
slash-segment and retries; when no examined candidate is a key of the
table -- in particular when the table is empty -- the original path is
returned unchanged, and when the exact path is a key its recorded
translation is returned. -/
theorem claim_C8 (trans : List (String × String)) (path : String) (hp : path ≠ "") :
    (trans = [] → replace_trans trans path = some path) ∧
    ((∀ q ∈ stripChain path, pyDictGet trans q = none) →
      replace_trans trans path = some path) ∧
    (∀ v, pyDictGet trans path = some v → replace_trans trans path = some v) :=
  ⟨fun h => h ▸ replace_trans_nil path,
   fun h => replace_trans_nomatch trans path hp h,
   fun v h => replace_trans_present trans path v h⟩

theorem claim_C8_witness :
    (("/p/q" : String) ≠ "") ∧
    (([("/x", "A")] : List (String × String)) = [] →
        replace_trans [("/x", "A")] "/p/q" = some "/p/q") ∧
    ((∀ q ∈ stripChain "/p/q", pyDictGet [("/x", "A")] q = none) →
        replace_trans [("/x", "A")] "/p/q" = some "/p/q") ∧
    (∀ v, pyDictGet [("/x", "A")] "/p/q" = some v →
        replace_trans [("/x", "A")] "/p/q" = some v) :=
  ⟨by decide,
   (claim_C8 [("/x", "A")] "/p/q" (by decide)).1,
   (claim_C8 [("/x", "A")] "/p/q" (by decide)).2.1,
   (claim_C8 [("/x", "A")] "/p/q" (by decide)).2.2⟩

/-! Characterisation of the diff dictionary. -/

theorem compareMaps_get (m1 m2 : List (String × List WrappedElement)) (k : String) :
    pyDictGet (compareMaps m1 m2) k =
      if k ∈ keysOf m1 ∧ k ∉ keysOf m2 then some ⟨pyDictGet m1 k, none⟩
      else if k ∈ keysOf m2 ∧ k ∉ keysOf m1 then some ⟨none, pyDictGet m2 k⟩
      else if k ∈ keysOf m1 ∧ k ∈ keysOf m2 ∧
          pySetEq (getList m1 k) (getList m2 k) = false then
        some ⟨pyDictGet m1 k, pyDictGet m2 k⟩
      else none := by
  unfold compareMaps
  rw [pyDictGet_append, pyDictGet_append,
    pyDictGet_tabulate, pyDictGet_tabulate, pyDictGet_tabulate]
  by_cases h1 : k ∈ keysOf m1 <;> by_cases h2 : k ∈ keysOf m2 <;>
    by_cases h3 : pySetEq (getList m1 k) (getList m2 k) = false <;>
    simp [List.mem_filter, h1, h2, h3, List.elem_iff, Option.or]

theorem compareMaps_eq_nil (m1 m2 : List (String × List WrappedElement))
    (hkeys : ∀ k, k ∈ keysOf m1 ↔ k ∈ keysOf m2)
    (hsets : ∀ k, pySetEq (getList m1 k) (getList m2 k) = true) :
    compareMaps m1 m2 = [] := by
  unfold compareMaps
  have h1 : (keysOf m1).filter (fun k => !((keysOf m2).contains k)) = [] := by
    rw [List.filter_eq_nil_iff]
    intro k hk
    simp [List.elem_iff, (hkeys k).mp hk]
  have h2 : (keysOf m2).filter (fun k => !((keysOf m1).contains k)) = [] := by
    rw [List.filter_eq_nil_iff]
    intro k hk
    simp [List.elem_iff, (hkeys k).mpr hk]
  have h3 : (keysOf m1).filter
      (fun k => ((keysOf m2).contains k) &&
        !(pySetEq (getList m1 k) (getList m2 k))) = [] := by
    rw [List.filter_eq_nil_iff]
    intro k _
    simp [hsets k]
  rw [h1, h2, h3]
  simp

/-- C1: the key set of the diff dictionary computed from the two produced
path dictionaries is exactly the union of the keys only in document 1, the
keys only in document 2, and the shared keys whose wrapper lists differ as
Python sets; keys of the first part carry only the document-1 list, keys
of the second part only the document-2 list, keys of the third part both
lists, and no other key appears. -/
theorem claim_C1 (special : List String) (maxLen : Int) (t1 t2 : XElem)
    (m1 m2 : List (String × List WrappedElement))
    (hm1 : create_path_tree special maxLen t1 = some m1)
    (hm2 : create_path_tree special maxLen t2 = some m2) :
    xmlCompare special maxLen t1 t2 = some (compareMaps m1 m2) ∧
    (∀ k : String, k ∈ keysOf (compareMaps m1 m2) ↔
      ((k ∈ keysOf m1 ∧ k ∉ keysOf m2) ∨
       (k ∈ keysOf m2 ∧ k ∉ keysOf m1) ∨
       (k ∈ keysOf m1 ∧ k ∈ keysOf m2 ∧
         pySetEq (getList m1 k) (getList m2 k) = false))) ∧
    (∀ k : String, k ∈ keysOf m1 → k ∉ keysOf m2 →
      pyDictGet (compareMaps m1 m2) k = some ⟨pyDictGet m1 k, none⟩) ∧
    (∀ k : String, k ∈ keysOf m2 → k ∉ keysOf m1 →
      pyDictGet (compareMaps m1 m2) k = some ⟨none, pyDictGet m2 k⟩) ∧
    (∀ k : String, k ∈ keysOf m1 → k ∈ keysOf m2 →
      pySetEq (getList m1 k) (getList m2 k) = false →
      pyDictGet (compareMaps m1 m2) k = some ⟨pyDictGet m1 k, pyDictGet m2 k⟩) := by
  refine ⟨?_, ?_, ?_, ?_, ?_⟩
  · unfold xmlCompare
    rw [hm1, hm2]
  · intro k
    rw [mem_keysOf_iff, compareMaps_get]
    by_cases h1 : k ∈ keysOf m1 <;> by_cases h2 : k ∈ keysOf m2 <;>
      by_cases h3 : pySetEq (getList m1 k) (getList m2 k) = false <;>
      simp [h1, h2, h3]
  · intro k h1 h2
    rw [compareMaps_get, if_pos ⟨h1, h2⟩]
  · intro k h2 h1
    rw [compareMaps_get, if_neg (fun h => h.2 h2), if_pos ⟨h2, h1⟩]
  · intro k h1 h2 h3
    rw [compareMaps_get, if_neg (fun h => h.2 h2), if_neg (fun h => h.2 h1),
      if_pos ⟨h1, h2, h3⟩]

theorem claim_C1_witness :
    (create_path_tree [] 80 ⟨"a", [], none, [⟨"b", [], some "1", []⟩]⟩ =
      some (pathMapD [] 80 ⟨"a", [], none, [⟨"b", [], some "1", []⟩]⟩)) ∧
    (create_path_tree [] 80 ⟨"a", [], none, []⟩ =
      some (pathMapD [] 80 ⟨"a", [], none, []⟩)) ∧
    (xmlCompare [] 80 ⟨"a", [], none, [⟨"b", [], some "1", []⟩]⟩ ⟨"a", [], none, []⟩ =
      some (compareMaps (pathMapD [] 80 ⟨"a", [], none, [⟨"b", [], some "1", []⟩]⟩)
        (pathMapD [] 80 ⟨"a", [], none, []⟩)) ∧
     (∀ k : String,
        k ∈ keysOf (compareMaps (pathMapD [] 80 ⟨"a", [], none, [⟨"b", [], some "1", []⟩]⟩)
            (pathMapD [] 80 ⟨"a", [], none, []⟩)) ↔
          ((k ∈ keysOf (pathMapD [] 80 ⟨"a", [], none, [⟨"b", [], some "1", []⟩]⟩) ∧
              k ∉ keysOf (pathMapD [] 80 ⟨"a", [], none, []⟩)) ∨
           (k ∈ keysOf (pathMapD [] 80 ⟨"a", [], none, []⟩) ∧
              k ∉ keysOf (pathMapD [] 80 ⟨"a", [], none, [⟨"b", [], some "1", []⟩]⟩)) ∨
           (k ∈ keysOf (pathMapD [] 80 ⟨"a", [], none, [⟨"b", [], some "1", []⟩]⟩) ∧
              k ∈ keysOf (pathMapD [] 80 ⟨"a", [], none, []⟩) ∧
              pySetEq (getList (pathMapD [] 80 ⟨"a", [], none, [⟨"b", [], some "1", []⟩]⟩) k)
                  (getList (pathMapD [] 80 ⟨"a", [], none, []⟩) k) = false))) ∧
     (∀ k : String,
        k ∈ keysOf (pathMapD [] 80 ⟨"a", [], none, [⟨"b", [], some "1", []⟩]⟩) →
        k ∉ keysOf (pathMapD [] 80 ⟨"a", [], none, []⟩) →
        pyDictGet (compareMaps (pathMapD [] 80 ⟨"a", [], none, [⟨"b", [], some "1", []⟩]⟩)
            (pathMapD [] 80 ⟨"a", [], none, []⟩)) k =
          some ⟨pyDictGet (pathMapD [] 80 ⟨"a", [], none, [⟨"b", [], some "1", []⟩]⟩) k, none⟩) ∧
     (∀ k : String,
        k ∈ keysOf (pathMapD [] 80 ⟨"a", [], none, []⟩) →
        k ∉ keysOf (pathMapD [] 80 ⟨"a", [], none, [⟨"b", [], some "1", []⟩]⟩) →
        pyDictGet (compareMaps (pathMapD [] 80 ⟨"a", [], none, [⟨"b", [], some "1", []⟩]⟩)
            (pathMapD [] 80 ⟨"a", [], none, []⟩)) k =
          some ⟨none, pyDictGet (pathMapD [] 80 ⟨"a", [], none, []⟩) k⟩) ∧
     (∀ k : String,
        k ∈ keysOf (pathMapD [] 80 ⟨"a", [], none, [⟨"b", [], some "1", []⟩]⟩) →
        k ∈ keysOf (pathMapD [] 80 ⟨"a", [], none, []⟩) →
        pySetEq (getList (pathMapD [] 80 ⟨"a", [], none, [⟨"b", [], some "1", []⟩]⟩) k)
            (getList (pathMapD [] 80 ⟨"a", [], none, []⟩) k) = false →
        pyDictGet (compareMaps (pathMapD [] 80 ⟨"a", [], none, [⟨"b", [], some "1", []⟩]⟩)
            (pathMapD [] 80 ⟨"a", [], none, []⟩)) k =
          some ⟨pyDictGet (pathMapD [] 80 ⟨"a", [], none, [⟨"b", [], some "1", []⟩]⟩) k,
                pyDictGet (pathMapD [] 80 ⟨"a", [], none, []⟩) k⟩)) :=
  ⟨create_path_tree_eq [] 80 ⟨"a", [], none, [⟨"b", [], some "1", []⟩]⟩,
   create_path_tree_eq [] 80 ⟨"a", [], none, []⟩,
   claim_C1 [] 80 ⟨"a", [], none, [⟨"b", [], some "1", []⟩]⟩ ⟨"a", [], none, []⟩ _ _
     (create_path_tree_eq [] 80 ⟨"a", [], none, [⟨"b", [], some "1", []⟩]⟩)
     (create_path_tree_eq [] 80 ⟨"a", [], none, []⟩)⟩

/-- C2: the derived equivalence boolean of a computed diff dictionary is
true exactly when that dictionary is the empty mapping. -/
theorem claim_C2 (special : List String) (maxLen : Int) (t1 t2 : XElem)
    (d : List (String × DiffEntry))
    (_hrun : xmlCompare special maxLen t1 t2 = some d) :
    the_same d = true ↔ d = [] := by
  simp [the_same, List.length_eq_zero]

theorem claim_C2_witness :
    xmlCompare [] 80 ⟨"a", [], none, []⟩ ⟨"a", [], none, []⟩ = some [] ∧
    (the_same [] = true ↔ ([] : List (String × DiffEntry)) = []) :=
  ⟨by decide, claim_C2 [] 80 ⟨"a", [], none, []⟩ ⟨"a", [], none, []⟩ [] (by decide)⟩

/-- C9: path uniquification never fails, whatever collisions occur: the
traversal always produces its dictionary, and the wrapper list stored
under any key has exactly one wrapper per element of the tree whose
synthetic path is that key, so lists longer than one are ordinary data. -/
theorem claim_C9 (special : List String) (maxLen : Int) (t : XElem) :
    create_path_tree special maxLen t = some (pathMapD special maxLen t) ∧
    ∀ k : String,
      (getList (pathMapD special maxLen t) k).length =
        (synthE special maxLen "" t).countP (fun p => p.1 == k) := by
  refine ⟨create_path_tree_eq special maxLen t, fun k => ?_⟩
  rw [pathMapD_getList, List.length_map, List.countP_eq_length_filter]

/-- C3: reordering distinguishable siblings, at any depth, preserves the
key set of the produced path dictionary and the set of wrappers stored
under every key, and the diff of the two trees is empty. The proof does
not even need the distinguishability hypothesis: synthetic paths never
mention sibling positions. -/
theorem claim_C3 (special : List String) (maxLen : Int) (t1 t2 : XElem)
    (hperm : SibPerm t1 t2) (_hdist : Disting special maxLen t1)
    (m1 m2 : List (String × List WrappedElement))
    (hm1 : create_path_tree special maxLen t1 = some m1)
    (hm2 : create_path_tree special maxLen t2 = some m2) :
    (∀ k : String, k ∈ keysOf m1 ↔ k ∈ keysOf m2) ∧
    (∀ k : String, (getList m1 k).toFinset = (getList m2 k).toFinset) ∧
    xmlCompare special maxLen t1 t2 = some [] := by
  rw [create_path_tree_eq] at hm1 hm2
  have e1 : m1 = pathMapD special maxLen t1 := (Option.some_inj.mp hm1).symm
  have e2 : m2 = pathMapD special maxLen t2 := (Option.some_inj.mp hm2).symm
  subst e1
  subst e2
  have hsyn := synthE_perm special maxLen t1 t2 hperm ""
  have hkeys : ∀ k : String,
      k ∈ keysOf (pathMapD special maxLen t1) ↔ k ∈ keysOf (pathMapD special maxLen t2) := by
    intro k
    rw [pathMapD_mem_iff, pathMapD_mem_iff]
    constructor
    · rintro ⟨p, hp, hk⟩
      exact ⟨p, hsyn.subset hp, hk⟩
    · rintro ⟨p, hp, hk⟩
      exact ⟨p, hsyn.symm.subset hp, hk⟩
  have hlists : ∀ k : String,
      (getList (pathMapD special maxLen t1) k).Perm
        (getList (pathMapD special maxLen t2) k) := by
    intro k
    rw [pathMapD_getList, pathMapD_getList]
    exact (hsyn.filter _).map _
  refine ⟨hkeys, fun k => List.toFinset_eq_of_perm _ _ (hlists k), ?_⟩
  unfold xmlCompare
  rw [create_path_tree_eq, create_path_tree_eq]
  show some (compareMaps (pathMapD special maxLen t1) (pathMapD special maxLen t2)) = some []
  rw [compareMaps_eq_nil _ _ hkeys (fun k => pySetEq_of_perm (hlists k))]

theorem claim_C3_witness :
    SibPerm
      ⟨"Root", [], none,
        [⟨"Item", [("name", "x")], none, []⟩, ⟨"Item", [("name", "y")], none, []⟩]⟩
      ⟨"Root", [], none,
        [⟨"Item", [("name", "y")], none, []⟩, ⟨"Item", [("name", "x")], none, []⟩]⟩ ∧
    Disting ["name"] 80
      ⟨"Root", [], none,
        [⟨"Item", [("name", "x")], none, []⟩, ⟨"Item", [("name", "y")], none, []⟩]⟩ ∧
    ((∀ k : String,
        k ∈ keysOf (pathMapD ["name"] 80
          ⟨"Root", [], none,
            [⟨"Item", [("name", "x")], none, []⟩, ⟨"Item", [("name", "y")], none, []⟩]⟩) ↔
        k ∈ keysOf (pathMapD ["name"] 80
          ⟨"Root", [], none,
            [⟨"Item", [("name", "y")], none, []⟩, ⟨"Item", [("name", "x")], none, []⟩]⟩)) ∧
     (∀ k : String,
        (getList (pathMapD ["name"] 80
          ⟨"Root", [], none,
            [⟨"Item", [("name", "x")], none, []⟩, ⟨"Item", [("name", "y")], none, []⟩]⟩) k).toFinset =
        (getList (pathMapD ["name"] 80
          ⟨"Root", [], none,
            [⟨"Item", [("name", "y")], none, []⟩, ⟨"Item", [("name", "x")], none, []⟩]⟩) k).toFinset) ∧
     xmlCompare ["name"] 80
       ⟨"Root", [], none,
         [⟨"Item", [("name", "x")], none, []⟩, ⟨"Item", [("name", "y")], none, []⟩]⟩
       ⟨"Root", [], none,
         [⟨"Item", [("name", "y")], none, []⟩, ⟨"Item", [("name", "x")], none, []⟩]⟩ =
       some []) :=
  ⟨SibPerm.mk "Root" [] none _ _
     (SibPermF.swap ⟨"Item", [("name", "x")], none, []⟩ ⟨"Item", [("name", "y")], none, []⟩ []),
   by unfold Disting; decide,
   claim_C3 ["name"] 80 _ _
     (SibPerm.mk "Root" [] none _ _
       (SibPermF.swap ⟨"Item", [("name", "x")], none, []⟩ ⟨"Item", [("name", "y")], none, []⟩ []))
     (by unfold Disting; decide) _ _
     (create_path_tree_eq ["name"] 80 _)
     (create_path_tree_eq ["name"] 80 _)⟩

end CompareXml
